import Mathlib

/-!
Verification of the tic-tac-toe game logic in `src/index.js`
(`Game.constructor`, `Game.handleClick`, `Game.jumpTo`, `getWinner`, `isFull`).

The shallow embedding models:
  * a cell as `Option Player` (`none` = JS `null` / `undefined` hole, both falsy),
  * a board as a `List Cell` (the JS array `squares`),
  * the component state `{ history, stepNumber, xIsNext }` as `GameState`,
  * `handleClick` / `jumpTo` as pure state transformers (each JS `setState`
    merge is reflected as a record update),
  * JS array index assignment `squares[i] = v`, which for `i ≥ squares.length`
    extends the array with holes, as `setCell`.

Reachable states are those produced by the UI event handlers: `handleClick i`
is only dispatched with `i ∈ [0,9)` (the nine rendered squares) and
`jumpTo move` only with `move ∈ [0, history.length)` (one button per history
entry).
-/

/-- The two marks, JS strings `'╳'` and `'◯'`. -/
inductive Player where
  | X : Player
  | O : Player
deriving DecidableEq, Repr, Fintype

/-- A cell: `none` is the JS `null` (empty) and also an out-of-range read
(`undefined`); both are falsy and `null === undefined` never matters here
because every comparison in the source is guarded by truthiness of one side. -/
abbrev Cell := Option Player

/-- The JS array `squares`. -/
abbrev Board := List Cell

/-- `Array(9).fill(null)`. -/
def emptyBoard : Board := List.replicate 9 none

/-- JS read `squares[k]`: the element when in range, `undefined` (here `none`)
otherwise. -/
def cellAt (squares : Board) (k : Nat) : Cell := squares.getD k none

/-- JS assignment `squares[k] = v`: in-range writes replace the element;
a write past the end extends the array to length `k+1`, the skipped
positions being holes that read back as `undefined` (`none`). -/
def setCell (squares : Board) (k : Nat) (v : Cell) : Board :=
  if k < squares.length then squares.set k v
  else squares ++ List.replicate (k - squares.length) none ++ [v]

/-- The `lines` constant of `getWinner`: the 8 winning triples, in source
order — 3 rows, 3 columns, 2 diagonals. -/
def lines : List (Nat × Nat × Nat) :=
  [(0, 1, 2), (3, 4, 5), (6, 7, 8),
   (0, 3, 6), (1, 4, 7), (2, 5, 8),
   (0, 4, 8), (2, 4, 6)]

/-- One iteration of the loop body of `getWinner`: the guard
`squares[a] && squares[a] === squares[b] && squares[a] === squares[c]`
yields `squares[a]` when it holds. -/
def lineWinner (squares : Board) (l : Nat × Nat × Nat) : Option Player :=
  match cellAt squares l.1 with
  | none => none
  | some m =>
    if cellAt squares l.2.1 = some m ∧ cellAt squares l.2.2 = some m then some m
    else none

/-- The `for` loop of `getWinner`: returns at the first triple whose guard
holds, `null` (`none`) when none does. -/
def firstWin (squares : Board) : List (Nat × Nat × Nat) → Option Player
  | [] => none
  | l :: ls =>
    match lineWinner squares l with
    | some m => some m
    | none => firstWin squares ls

/-- `getWinner(squares)` from the source. -/
def getWinner (squares : Board) : Option Player := firstWin squares lines

/-- `isFull(squares)` from the source: scans indices `0 .. length-1` and
reports `false` at the first cell that is `=== null`. -/
def isFull (squares : Board) : Bool := squares.all fun c => c.isSome

/-- The `Game` component state: `{ history, stepNumber, xIsNext }`. -/
structure GameState where
  history : List Board
  stepNumber : Nat
  xIsNext : Bool
deriving DecidableEq, Repr

/-- The state built by `Game`'s constructor: one empty snapshot, step 0,
`'X'` to move. -/
def initialState : GameState := ⟨[emptyBoard], 0, true⟩

/-- `history = this.state.history.slice(0, this.state.stepNumber + 1)`
in `handleClick`. -/
def truncHistory (s : GameState) : List Board :=
  s.history.take (s.stepNumber + 1)

/-- `current = history[history.length - 1]` in `handleClick` (its `squares`
array; the `slice()` copy is the identity in a functional model). In the
source an empty `history` would crash on `current.squares`; reachable
histories are never empty, and the default here is arbitrary. -/
def viewedBoard (s : GameState) : Board :=
  (truncHistory s).getD ((truncHistory s).length - 1) emptyBoard

/-- The mark the active player places: `this.state.xIsNext ? '╳' : '◯'`. -/
def activeMark (s : GameState) : Player :=
  if s.xIsNext then Player.X else Player.O

/-- `Game.handleClick(i)`: truncate the history to the viewed step, ignore
the click if the game is won or the square is truthy, otherwise place the
active mark and `setState` the appended history, `stepNumber = history.length`
(the truncated length) and the flipped `xIsNext`. -/
def handleClick (s : GameState) (i : Nat) : GameState :=
  if (getWinner (viewedBoard s)).isSome || (cellAt (viewedBoard s) i).isSome then s
  else
    { history := truncHistory s ++ [setCell (viewedBoard s) i (some (activeMark s))],
      stepNumber := (truncHistory s).length,
      xIsNext := !s.xIsNext }

/-- `Game.jumpTo(step)`: when `step === 0` a first `setState` replaces the
history with a fresh single empty snapshot; a second `setState` (merged)
sets `stepNumber = step` and `xIsNext = (step % 2) === 0`. -/
def jumpTo (s : GameState) (step : Nat) : GameState :=
  let s1 := if step = 0 then { s with history := [emptyBoard] } else s
  { s1 with stepNumber := step, xIsNext := decide (step % 2 = 0) }

/-- The snapshot the spec calls `history[currentStep]` (also what `render`
reads). -/
def currentBoard (s : GameState) : Board :=
  s.history.getD s.stepNumber emptyBoard

/-- States the running program can be in: the constructor's state, closed
under the two event handlers as the UI dispatches them — square clicks carry
an index in `[0,9)` and history buttons a step in `[0, history.length)`. -/
inductive Reachable : GameState → Prop
  | init : Reachable initialState
  | move {s : GameState} (i : Nat) (hi : i < 9) (h : Reachable s) :
      Reachable (handleClick s i)
  | jump {s : GameState} (step : Nat) (hs : step < s.history.length)
      (h : Reachable s) : Reachable (jumpTo s step)

/-- Spec-side predicate for claim C2: some winning line is uniformly `m`.
`lines` is literally the list of the 3 rows, 3 columns and 2 diagonals. -/
def winsLine (b : Board) (m : Player) : Prop :=
  ∃ l ∈ lines, cellAt b l.1 = some m ∧ cellAt b l.2.1 = some m ∧
    cellAt b l.2.2 = some m

instance (b : Board) (m : Player) : Decidable (winsLine b m) := by
  unfold winsLine
  infer_instance

/-- Terminal board in the spec's sense: won, or full (draw when combined
with "no winner"). -/
def Terminal (b : Board) : Prop := (getWinner b).isSome ∨ isFull b = true

instance (b : Board) : Decidable (Terminal b) := by
  unfold Terminal
  infer_instance

/-- Number of non-empty cells of a snapshot. -/
def countMarks (b : Board) : Nat := b.countP fun c => c.isSome

/-- Adjacent snapshots differ in exactly one cell: some empty cell received
a mark and every other position is unchanged (the boards have equal length). -/
def diffOne (a b : Board) : Prop :=
  b.length = a.length ∧
  ∃ j, j < a.length ∧ cellAt a j = none ∧ (cellAt b j).isSome = true ∧
    ∀ k, k ≠ j → cellAt b k = cellAt a k

/-- The inductive invariant of the game state, everything the claims'
invariants need: the viewed step is in range, every snapshot has 9 cells,
snapshot 0 is empty, `xIsNext` follows the parity of `stepNumber`, snapshot
`k` carries exactly `k` marks, and adjacent snapshots differ in one cell. -/
def GameInv (s : GameState) : Prop :=
  s.stepNumber < s.history.length ∧
  (∀ b ∈ s.history, b.length = 9) ∧
  s.history.getD 0 emptyBoard = emptyBoard ∧
  s.xIsNext = decide (s.stepNumber % 2 = 0) ∧
  (∀ k, k < s.history.length → countMarks (s.history.getD k emptyBoard) = k) ∧
  (∀ k, k + 1 < s.history.length →
    diffOne (s.history.getD k emptyBoard) (s.history.getD (k + 1) emptyBoard))

/-- The board `╳╳╳ / ◯◯◯ / ___`: both players own a uniform row, so the
per-mark biconditional of claim C2 cannot hold for `◯`. -/
def boardXO : Board :=
  [some Player.X, some Player.X, some Player.X,
   some Player.O, some Player.O, some Player.O, none, none, none]

/-- The state after the single move `╳` at square 0. -/
def oneMoveState : GameState := handleClick initialState 0

/-- The state after moves `╳0, ◯4, ╳8` (no winner): history length 4. -/
def threeMoveState : GameState :=
  handleClick (handleClick (handleClick initialState 0) 4) 8

/-- `threeMoveState` after `jumpTo(1)`: viewing step 1 of a history of
length 4. -/
def backJumpState : GameState := jumpTo threeMoveState 1

/-- A full drawn game: `╳0, ◯2, ╳1, ◯3, ╳5, ◯4, ╳6, ◯7, ╳8` ends with all
nine cells filled and no uniform line. -/
def drawMoves : List Nat := [0, 2, 1, 3, 5, 4, 6, 7, 8]

def drawState : GameState := List.foldl handleClick initialState drawMoves

theorem truncHistory_length (s : GameState)
    (h : s.stepNumber < s.history.length) :
    (truncHistory s).length = s.stepNumber + 1 := by
  simp [truncHistory, Nat.min_eq_left h]

theorem viewedBoard_eq (s : GameState) (h : s.stepNumber < s.history.length) :
    viewedBoard s = currentBoard s := by
  unfold viewedBoard currentBoard
  rw [truncHistory_length s h]
  simp only [Nat.add_sub_cancel, truncHistory, List.getD_eq_getElem?_getD]
  rw [List.getElem?_take_of_lt (Nat.lt_succ_self _)]

theorem parity_flip (n : Nat) :
    (!decide (n % 2 = 0)) = decide ((n + 1) % 2 = 0) := by
  rcases Nat.mod_two_eq_zero_or_one n with h | h <;>
    simp [h, Nat.add_mod]

theorem countMarks_set (b : Board) (i : Nat) (m : Player)
    (hi : i < b.length) (he : cellAt b i = none) :
    countMarks (b.set i (some m)) = countMarks b + 1 := by
  induction b generalizing i with
  | nil => simp at hi
  | cons c cs ih =>
    cases i with
    | zero =>
      simp only [cellAt, List.getD_cons_zero] at he
      subst he
      simp [countMarks, List.countP_cons]
    | succ n =>
      simp only [cellAt, List.getD_cons_succ] at he
      simp only [List.length_cons, Nat.succ_lt_succ_iff] at hi
      simp only [List.set_cons_succ, countMarks, List.countP_cons]
      have := ih n hi he
      simp only [countMarks] at this
      omega

theorem diffOne_set (b : Board) (i : Nat) (m : Player)
    (hi : i < b.length) (he : cellAt b i = none) :
    diffOne b (b.set i (some m)) := by
  refine ⟨by simp, i, hi, he, ?_, ?_⟩
  · simp [cellAt, List.getD_eq_getElem?_getD, List.getElem?_set_self hi]
  · intro k hk
    simp [cellAt, List.getD_eq_getElem?_getD, List.getElem?_set_ne (Ne.symm hk)]

theorem handleClick_noop (s : GameState) (i : Nat)
    (h : ((getWinner (viewedBoard s)).isSome ||
      (cellAt (viewedBoard s) i).isSome) = true) :
    handleClick s i = s := by
  unfold handleClick
  rw [if_pos h]

theorem handleClick_move (s : GameState)
    (hstep : s.stepNumber < s.history.length)
    (hlen : (currentBoard s).length = 9) (i : Nat) (hi : i < 9)
    (hw : getWinner (currentBoard s) = none)
    (hc : cellAt (currentBoard s) i = none) :
    handleClick s i =
      { history := s.history.take (s.stepNumber + 1) ++
          [(currentBoard s).set i (some (activeMark s))],
        stepNumber := s.stepNumber + 1,
        xIsNext := !s.xIsNext } := by
  have hv := viewedBoard_eq s hstep
  unfold handleClick
  rw [hv, hw, hc]
  simp only [Option.isSome_none, Bool.or_self, Bool.false_eq_true, if_false]
  rw [truncHistory_length s hstep]
  simp only [truncHistory, setCell, hlen, hi, if_pos]

theorem currentBoard_mem (s : GameState)
    (h : s.stepNumber < s.history.length) : currentBoard s ∈ s.history := by
  unfold currentBoard
  rw [List.getD_eq_getElem?_getD, List.getElem?_eq_getElem h]
  simp only [Option.getD_some]
  exact List.getElem_mem h

theorem gameInv_jumpTo (s : GameState) (step : Nat)
    (hs : step < s.history.length) (h : GameInv s) : GameInv (jumpTo s step) := by
  obtain ⟨h1, h2, h3, h4, h5, h6⟩ := h
  unfold jumpTo
  by_cases h0 : step = 0
  · subst h0
    rw [if_pos rfl]
    refine ⟨by simp, ?_, rfl, rfl, ?_, ?_⟩
    · intro b hb
      simp only [List.mem_singleton] at hb
      simp [hb, emptyBoard]
    · intro k hk
      simp only [List.length_singleton, Nat.lt_one_iff] at hk
      subst hk
      rfl
    · intro k hk
      simp only [List.length_singleton] at hk
      omega
  · simp only [if_neg h0]
    exact ⟨hs, h2, h3, rfl, h5, h6⟩

theorem gameInv_handleClick (s : GameState) (i : Nat) (hi : i < 9)
    (h : GameInv s) : GameInv (handleClick s i) := by
  obtain ⟨h1, h2, h3, h4, h5, h6⟩ := h
  by_cases hg : ((getWinner (viewedBoard s)).isSome ||
      (cellAt (viewedBoard s) i).isSome) = true
  · rw [handleClick_noop s i hg]
    exact ⟨h1, h2, h3, h4, h5, h6⟩
  · have hw : getWinner (currentBoard s) = none := by
      rw [← viewedBoard_eq s h1]
      cases hx : getWinner (viewedBoard s) with
      | none => rfl
      | some m => exact absurd (by simp [hx]) hg
    have hc : cellAt (currentBoard s) i = none := by
      rw [← viewedBoard_eq s h1]
      cases hx : cellAt (viewedBoard s) i with
      | none => rfl
      | some m => exact absurd (by simp [hx]) hg
    have hb : currentBoard s ∈ s.history := currentBoard_mem s h1
    have hlen : (currentBoard s).length = 9 := h2 _ hb
    have hi' : i < (currentBoard s).length := by omega
    rw [handleClick_move s h1 hlen i hi hw hc]
    set n := s.stepNumber with hn
    set T := s.history.take (n + 1) with hT
    set b2 := (currentBoard s).set i (some (activeMark s)) with hb2
    have hTlen : T.length = n + 1 := by
      rw [hT, List.length_take, Nat.min_eq_left h1]
    have hgetT : ∀ k, k < n + 1 →
        (T ++ [b2]).getD k emptyBoard = s.history.getD k emptyBoard := by
      intro k hk
      rw [List.getD_eq_getElem?_getD,
        List.getElem?_append_left (by rw [hTlen]; exact hk), hT,
        List.getElem?_take_of_lt hk, ← List.getD_eq_getElem?_getD]
    have hgetLast : (T ++ [b2]).getD (n + 1) emptyBoard = b2 := by
      rw [List.getD_eq_getElem?_getD,
        List.getElem?_append_right (by rw [hTlen])]
      simp [hTlen]
    refine ⟨?_, ?_, ?_, ?_, ?_, ?_⟩
    · simp only [List.length_append, List.length_singleton, hTlen]
      omega
    · intro b hb'
      rcases List.mem_append.1 hb' with hbT | hbL
      · exact h2 _ (List.take_subset _ _ hbT)
      · simp only [List.mem_singleton] at hbL
        subst hbL
        rw [hb2, List.length_set]
        exact hlen
    · rw [hgetT 0 (by omega)]
      exact h3
    · simp only [h4, parity_flip]
    · intro k hk
      simp only [List.length_append, List.length_singleton, hTlen] at hk
      rcases Nat.lt_or_ge k (n + 1) with hk' | hk'
      · rw [hgetT k hk']
        exact h5 k (by omega)
      · have hkeq : k = n + 1 := by omega
        subst hkeq
        rw [hgetLast, hb2, countMarks_set _ _ _ hi' hc]
        have hcnt := h5 n h1
        unfold currentBoard
        rw [← hn]
        omega
    · intro k hk
      simp only [List.length_append, List.length_singleton, hTlen] at hk
      rcases Nat.lt_or_ge (k + 1) (n + 1) with hk' | hk'
      · rw [hgetT k (by omega), hgetT (k + 1) hk']
        exact h6 k (by omega)
      · have hkeq : k = n := by omega
        subst hkeq
        rw [hgetT n (by omega), hgetLast, hb2]
        exact diffOne_set _ _ _ hi' hc

theorem reachable_inv {s : GameState} (h : Reachable s) : GameInv s := by
  induction h with
  | init =>
    refine ⟨by decide, by decide, rfl, rfl, ?_, ?_⟩
    · intro k hk
      simp only [initialState, List.length_singleton, Nat.lt_one_iff] at hk
      subst hk
      decide
    · intro k hk
      simp only [initialState, List.length_singleton] at hk
      omega
  | move i hi _ ih => exact gameInv_handleClick _ i hi ih
  | jump step hs _ ih => exact gameInv_jumpTo _ step hs ih

theorem lineWinner_eq_some (b : Board) (l : Nat × Nat × Nat) (m : Player) :
    lineWinner b l = some m ↔
      cellAt b l.1 = some m ∧ cellAt b l.2.1 = some m ∧
        cellAt b l.2.2 = some m := by
  unfold lineWinner
  cases hx : cellAt b l.1 with
  | none => simp [hx]
  | some m2 =>
    show (if cellAt b l.2.1 = some m2 ∧ cellAt b l.2.2 = some m2 then some m2
      else none) = some m ↔ _
    by_cases he : cellAt b l.2.1 = some m2 ∧ cellAt b l.2.2 = some m2
    · rw [if_pos he]
      constructor
      · intro hm
        injection hm with hm
        subst hm
        exact ⟨rfl, he.1, he.2⟩
      · rintro ⟨h1, _, _⟩
        exact h1
    · rw [if_neg he]
      constructor
      · intro hm
        exact absurd hm (by simp)
      · rintro ⟨h1, h2, h3⟩
        injection h1 with h1
        subst h1
        exact absurd ⟨h2, h3⟩ he

theorem firstWin_mem (b : Board) (ls : List (Nat × Nat × Nat)) (m : Player)
    (h : firstWin b ls = some m) : ∃ l ∈ ls, lineWinner b l = some m := by
  induction ls with
  | nil => simp [firstWin] at h
  | cons l ls ih =>
    cases hx : lineWinner b l with
    | some m2 =>
      simp only [firstWin, hx, Option.some.injEq] at h
      subst h
      exact ⟨l, List.mem_cons_self l ls, hx⟩
    | none =>
      simp only [firstWin, hx] at h
      obtain ⟨l2, hl2, hw⟩ := ih h
      exact ⟨l2, List.mem_cons_of_mem _ hl2, hw⟩

theorem firstWin_isSome (b : Board) (ls : List (Nat × Nat × Nat))
    (l : Nat × Nat × Nat) (hl : l ∈ ls) (m : Player)
    (hw : lineWinner b l = some m) : (firstWin b ls).isSome = true := by
  induction ls with
  | nil => simp at hl
  | cons l2 ls ih =>
    cases hx : lineWinner b l2 with
    | some m2 => simp [firstWin, hx]
    | none =>
      rcases List.mem_cons.1 hl with heq | hl2
      · subst heq
        rw [hx] at hw
        exact absurd hw (by simp)
      · simp only [firstWin, hx]
        exact ih hl2

theorem getWinner_sound (b : Board) (m : Player)
    (h : getWinner b = some m) : winsLine b m := by
  obtain ⟨l, hl, hw⟩ := firstWin_mem b lines m h
  exact ⟨l, hl, (lineWinner_eq_some b l m).1 hw⟩

theorem getWinner_complete (b : Board) (m : Player) (h : winsLine b m) :
    (getWinner b).isSome = true := by
  obtain ⟨l, hl, h1, h2, h3⟩ := h
  exact firstWin_isSome b lines l hl m
    ((lineWinner_eq_some b l m).2 ⟨h1, h2, h3⟩)

theorem cellAt_out_of_range (b : Board) (i : Nat) (h : b.length ≤ i) :
    cellAt b i = none := by
  unfold cellAt
  rw [List.getD_eq_getElem?_getD, List.getElem?_eq_none h]
  rfl

theorem isFull_cellAt (b : Board) (hf : isFull b = true) (i : Nat)
    (hi : i < b.length) : (cellAt b i).isSome = true := by
  unfold isFull at hf
  rw [List.all_eq_true] at hf
  unfold cellAt
  rw [List.getD_eq_getElem?_getD, List.getElem?_eq_getElem hi]
  exact hf _ (List.getElem_mem hi)

/-- Case where `handleClick` accepts the click, before reducing `setCell`:
shared by the in-range (claim C1) and out-of-range (claim C5) analyses. -/
theorem handleClick_proceed (s : GameState)
    (hstep : s.stepNumber < s.history.length) (i : Nat)
    (hw : getWinner (currentBoard s) = none)
    (hc : cellAt (currentBoard s) i = none) :
    handleClick s i =
      { history := s.history.take (s.stepNumber + 1) ++
          [setCell (currentBoard s) i (some (activeMark s))],
        stepNumber := s.stepNumber + 1,
        xIsNext := !s.xIsNext } := by
  have hv := viewedBoard_eq s hstep
  unfold handleClick
  rw [hv, hw, hc]
  simp only [Option.isSome_none, Bool.or_self, Bool.false_eq_true, if_false]
  rw [truncHistory_length s hstep]
  simp only [truncHistory]

theorem reachable_foldl (ms : List Nat) (hms : ∀ i ∈ ms, i < 9)
    (s : GameState) (h : Reachable s) :
    Reachable (ms.foldl handleClick s) := by
  induction ms generalizing s with
  | nil => exact h
  | cons m ms ih =>
    exact ih (fun i hi => hms i (List.mem_cons_of_mem _ hi)) _
      (.move m (hms m (List.mem_cons_self _ _)) h)

theorem reachable_oneMoveState : Reachable oneMoveState :=
  .move 0 (by decide) .init

theorem reachable_threeMoveState : Reachable threeMoveState :=
  .move 8 (by decide) (.move 4 (by decide) (.move 0 (by decide) .init))

theorem reachable_backJumpState : Reachable backJumpState :=
  .jump 1 (by decide) reachable_threeMoveState

theorem reachable_drawState : Reachable drawState :=
  reachable_foldl drawMoves (by decide) initialState .init

/-!
The claims. Spec-scenario sanity checks first.
-/

example : getWinner (currentBoard threeMoveState) = none := by decide

example :
    getWinner [some Player.X, some Player.X, some Player.X,
      some Player.O, some Player.O, none, none, none, none] = some Player.X := by
  decide

example : isFull (currentBoard drawState) = true ∧
    getWinner (currentBoard drawState) = none := by decide

/-- C1: on a reachable state, when the clicked cell is in range and empty
and the viewed board has no winner, `applyMove` (`handleClick`) truncates
the history to `currentStep + 1` entries, appends the current board with
the cell set to the active player's mark, advances `currentStep` by 1 and
flips `nextPlayer`; the new history length is `currentStep + 2` (so from
step 1 of a history of length 4, the result has length 3). -/
theorem applyMove_valid (s : GameState) (h : Reachable s) (i : Nat)
    (hi : i < 9) (hw : getWinner (currentBoard s) = none)
    (hc : cellAt (currentBoard s) i = none) :
    handleClick s i =
      { history := s.history.take (s.stepNumber + 1) ++
          [(currentBoard s).set i (some (activeMark s))],
        stepNumber := s.stepNumber + 1,
        xIsNext := !s.xIsNext } ∧
    (handleClick s i).history.length = s.stepNumber + 2 := by
  have hinv := reachable_inv h
  have hlen : (currentBoard s).length = 9 :=
    hinv.2.1 _ (currentBoard_mem s hinv.1)
  have he := handleClick_move s hinv.1 hlen i hi hw hc
  refine ⟨he, ?_⟩
  rw [he]
  simp only [List.length_append, List.length_take, List.length_singleton,
    Nat.min_eq_left hinv.1]

/-- C1 witness: the spec's scenario — history of length 4, `jumpTo(1)`,
then `applyMove(5)` gives a history of length 3. -/
theorem applyMove_valid_witness :
    threeMoveState.history.length = 4 ∧
    backJumpState.stepNumber = 1 ∧
    getWinner (currentBoard backJumpState) = none ∧
    cellAt (currentBoard backJumpState) 5 = none ∧
    (handleClick backJumpState 5).history.length = 3 := by
  have h := applyMove_valid backJumpState reachable_backJumpState 5
    (by decide) (by decide) (by decide)
  exact ⟨by decide, by decide, by decide, by decide, h.2.trans (by decide)⟩

/-- C2 counterexample: on the board `╳╳╳/◯◯◯/___`, a winning line is
uniformly `◯`, yet `getWinner` does not return `◯` (it returns the first
winning line's mark, `╳`), so "returns mark m iff some line is uniformly m"
fails at `m = ◯`. -/
theorem getWinner_per_mark_cex :
    boardXO.length = 9 ∧ winsLine boardXO Player.O ∧
    getWinner boardXO ≠ some Player.O :=
  ⟨by decide, by decide, by decide⟩

/-- C2 (amended): on every board of 9 cells, `getWinner` returns a mark
iff at least one of the 8 winning lines has all three cells equal to some
non-empty mark, and every mark it returns does occupy such a uniform line
(when both players own uniform lines, the first line in the fixed order
decides, so the per-mark "if" direction cannot be required). -/
theorem getWinner_spec (b : Board) (_hb : b.length = 9) :
    ((getWinner b).isSome = true ↔ ∃ m, winsLine b m) ∧
    (∀ m, getWinner b = some m → winsLine b m) := by
  refine ⟨⟨?_, ?_⟩, fun m hm => getWinner_sound b m hm⟩
  · intro hs
    cases hx : getWinner b with
    | none => rw [hx] at hs; exact absurd hs (by simp)
    | some m => exact ⟨m, getWinner_sound b m hx⟩
  · rintro ⟨m, hm⟩
    exact getWinner_complete b m hm

/-- C2 witness: the top-row-`╳` board wins and the returned mark occupies
a uniform line. -/
theorem getWinner_spec_witness :
    boardXO.length = 9 ∧ winsLine boardXO Player.X :=
  ⟨by decide, (getWinner_spec boardXO (by decide)).2 Player.X (by decide)⟩

/-- C3 counterexample: a reachable state with history of length 2; the
in-range `jumpTo(0)` replaces the history with a single fresh empty
snapshot, so the history field does change. -/
theorem jumpTo_zero_truncates :
    Reachable oneMoveState ∧ oneMoveState.history.length = 2 ∧
    (jumpTo oneMoveState 0).history ≠ oneMoveState.history :=
  ⟨reachable_oneMoveState, by decide, by decide⟩

/-- C3 (amended): for an in-range step, `jumpTo(step)` sets `currentStep`
to `step` and recomputes `nextPlayer` from the parity of `step`; the
history is unchanged when `step ≥ 1`, but `jumpTo(0)` resets it to the
single empty snapshot (the source comments call this restart). -/
theorem jumpTo_effect (s : GameState) (_h : Reachable s) (step : Nat)
    (_hs : step < s.history.length) :
    (jumpTo s step).history =
      (if step = 0 then [emptyBoard] else s.history) ∧
    (jumpTo s step).stepNumber = step ∧
    (jumpTo s step).xIsNext = decide (step % 2 = 0) := by
  simp only [jumpTo]
  by_cases h0 : step = 0
  · subst h0
    simp
  · simp [h0]

/-- C3 witness: on the reachable one-move state, `jumpTo(0)` resets the
history while `jumpTo(1)` preserves it and sets the step. -/
theorem jumpTo_effect_witness :
    oneMoveState.history.length = 2 ∧
    (jumpTo oneMoveState 0).history = [emptyBoard] ∧
    (jumpTo oneMoveState 1).history = oneMoveState.history ∧
    (jumpTo oneMoveState 1).stepNumber = 1 := by
  have h0 := jumpTo_effect oneMoveState reachable_oneMoveState 0 (by decide)
  have h1 := jumpTo_effect oneMoveState reachable_oneMoveState 1 (by decide)
  refine ⟨by decide, ?_, ?_, h1.2.1⟩
  · rw [h0.1, if_pos rfl]
  · rw [h1.1, if_neg (by decide)]

/-- C4 counterexample: `jumpTo(1)` on the initial state (history length 1,
so 1 is out of range) is not a no-op: it changes `currentStep` to 1. -/
theorem jumpTo_out_of_range_cex :
    Reachable initialState ∧ initialState.history.length ≤ 1 ∧
    jumpTo initialState 1 ≠ initialState :=
  ⟨.init, by decide, by decide⟩

/-- C4 (amended): there is no range guard — for a step at or beyond the
history length, `jumpTo(step)` still sets `currentStep = step` and
recomputes `nextPlayer` from parity, silently (the history is unchanged,
since such a step is never 0). -/
theorem jumpTo_out_of_range_effect (s : GameState) (h : Reachable s)
    (step : Nat) (hs : s.history.length ≤ step) :
    (jumpTo s step).history = s.history ∧
    (jumpTo s step).stepNumber = step ∧
    (jumpTo s step).xIsNext = decide (step % 2 = 0) := by
  have h1 := (reachable_inv h).1
  have h0 : step ≠ 0 := by omega
  simp [jumpTo, h0]

/-- C4 witness: `jumpTo(3)` on the initial state keeps the history and
moves the viewed step to 3. -/
theorem jumpTo_out_of_range_effect_witness :
    initialState.history.length ≤ 3 ∧
    (jumpTo initialState 3).history = initialState.history ∧
    (jumpTo initialState 3).stepNumber = 3 := by
  have h := jumpTo_out_of_range_effect initialState .init 3 (by decide)
  exact ⟨by decide, h.1, h.2.1⟩

/-- C5 counterexample: `applyMove(9)` on the initial state (9 is outside
`[0,9)`) is not a no-op: `squares[9]` is `undefined`, hence falsy, so the
guard does not fire and a move is recorded. -/
theorem applyMove_out_of_range_cex :
    Reachable initialState ∧ handleClick initialState 9 ≠ initialState :=
  ⟨.init, by decide⟩

/-- C5 (amended): an out-of-range cell index is not rejected. If the
viewed board has a winner the click is ignored as usual; otherwise the
move proceeds — the JS write `squares[i] = mark` extends the 9-cell board
with `i - 9` holes and the mark, the extended board is appended, the step
advances and the player flips. No error is surfaced. -/
theorem applyMove_out_of_range_effect (s : GameState) (h : Reachable s)
    (i : Nat) (hi : 9 ≤ i) (hw : getWinner (currentBoard s) = none) :
    handleClick s i =
      { history := s.history.take (s.stepNumber + 1) ++
          [currentBoard s ++ List.replicate (i - 9) none ++
            [some (activeMark s)]],
        stepNumber := s.stepNumber + 1,
        xIsNext := !s.xIsNext } := by
  have hinv := reachable_inv h
  have hlen : (currentBoard s).length = 9 :=
    hinv.2.1 _ (currentBoard_mem s hinv.1)
  have hc : cellAt (currentBoard s) i = none :=
    cellAt_out_of_range _ _ (by omega)
  have hset : setCell (currentBoard s) i (some (activeMark s)) =
      currentBoard s ++ List.replicate (i - 9) none ++
        [some (activeMark s)] := by
    simp only [setCell, hlen]
    rw [if_neg (by omega)]
  rw [handleClick_proceed s hinv.1 i hw hc, hset]

/-- C5 witness: `applyMove(9)` on the initial state appends a 10-cell
board whose cell 9 is `╳` and advances the step. -/
theorem applyMove_out_of_range_effect_witness :
    getWinner (currentBoard initialState) = none ∧
    (handleClick initialState 9).stepNumber = 1 ∧
    (handleClick initialState 9).history.length = 2 ∧
    (handleClick initialState 9).history.getD 1 emptyBoard =
      emptyBoard ++ [some Player.X] := by
  have h := applyMove_out_of_range_effect initialState .init 9
    (by decide) (by decide)
  refine ⟨by decide, ?_, ?_, ?_⟩ <;> rw [h] <;> decide

/-- C6 counterexample: a reachable drawn state (board full, no winner) is
terminal, yet `applyMove(9)` changes the history: the guard only tests the
winner and `squares[9]`, and on a full 9-cell board `squares[9]` is
`undefined`. -/
theorem applyMove_terminal_cex :
    Reachable drawState ∧ Terminal (currentBoard drawState) ∧
    isFull (currentBoard drawState) = true ∧
    getWinner (currentBoard drawState) = none ∧
    (handleClick drawState 9).history ≠ drawState.history :=
  ⟨reachable_drawState, by decide, by decide, by decide, by decide⟩

/-- C6 (amended): on a reachable state whose viewed board is terminal,
`applyMove(cellIndex)` is a no-op (history, `currentStep` and `nextPlayer`
unchanged) for every in-range `cellIndex ∈ [0,9)`; on a Won board it is a
no-op for every `cellIndex` whatsoever. (Only a Draw board together with
an out-of-range index escapes the guard.) -/
theorem applyMove_terminal_noop (s : GameState) (h : Reachable s) :
    (∀ i, i < 9 → Terminal (currentBoard s) → handleClick s i = s) ∧
    (∀ i, (getWinner (currentBoard s)).isSome = true → handleClick s i = s) := by
  have hinv := reachable_inv h
  have hv := viewedBoard_eq s hinv.1
  have hwin : ∀ i, (getWinner (currentBoard s)).isSome = true →
      handleClick s i = s := by
    intro i hw
    apply handleClick_noop
    rw [hv, hw, Bool.true_or]
  refine ⟨?_, hwin⟩
  intro i hi ht
  rcases ht with hw | hf
  · exact hwin i hw
  · apply handleClick_noop
    have hlen : (currentBoard s).length = 9 :=
      hinv.2.1 _ (currentBoard_mem s hinv.1)
    rw [hv, isFull_cellAt _ hf i (by omega), Bool.or_true]

/-- C6 witness: clicking square 0 of the completed drawn game changes
nothing. -/
theorem applyMove_terminal_noop_witness :
    Terminal (currentBoard drawState) ∧
    handleClick drawState 0 = drawState :=
  ⟨by decide, (applyMove_terminal_noop drawState reachable_drawState).1 0
    (by decide) (by decide)⟩

/-- C7: on a reachable state, clicking an in-range cell that is already
occupied is a no-op: the whole state (history, `currentStep`, `nextPlayer`)
is unchanged. -/
theorem applyMove_occupied_noop (s : GameState) (h : Reachable s) (i : Nat)
    (_hi : i < 9) (hc : (cellAt (currentBoard s) i).isSome = true) :
    handleClick s i = s := by
  have hinv := reachable_inv h
  apply handleClick_noop
  rw [viewedBoard_eq s hinv.1, hc, Bool.or_true]

/-- C7 witness: re-clicking square 0 after `╳` played there changes
nothing. -/
theorem applyMove_occupied_noop_witness :
    (cellAt (currentBoard oneMoveState) 0).isSome = true ∧
    handleClick oneMoveState 0 = oneMoveState :=
  ⟨by decide, applyMove_occupied_noop oneMoveState reachable_oneMoveState 0
    (by decide) (by decide)⟩

/-- C8: in every reachable state (the initial one and after every sequence
of UI moves and jumps), `nextPlayer` is `╳` exactly when `currentStep` is
even; and immediately after any `jumpTo(step)` it is `╳` iff `step` is
even. -/
theorem nextPlayer_parity :
    (∀ s : GameState, Reachable s →
      (s.xIsNext = true ↔ s.stepNumber % 2 = 0)) ∧
    (∀ (s : GameState) (step : Nat),
      ((jumpTo s step).xIsNext = true ↔ step % 2 = 0)) := by
  constructor
  · intro s h
    rw [(reachable_inv h).2.2.2.1]
    simp
  · intro s step
    simp [jumpTo]

/-- C8 witness: the one-move state has odd step and `◯` to play, and
`jumpTo(1)` from it yields `◯` to play. -/
theorem nextPlayer_parity_witness :
    (oneMoveState.xIsNext = true ↔ oneMoveState.stepNumber % 2 = 0) ∧
    ((jumpTo oneMoveState 1).xIsNext = true ↔ 1 % 2 = 0) :=
  ⟨nextPlayer_parity.1 oneMoveState reachable_oneMoveState,
   nextPlayer_parity.2 oneMoveState 1⟩

/-- C9: in every reachable state the history is non-empty and its snapshot
at index 0 is the empty board. -/
theorem history_starts_empty (s : GameState) (h : Reachable s) :
    s.history ≠ [] ∧ s.history.getD 0 emptyBoard = emptyBoard := by
  have hinv := reachable_inv h
  exact ⟨List.length_pos.1 (Nat.lt_of_le_of_lt (Nat.zero_le _) hinv.1),
    hinv.2.2.1⟩

/-- C9 witness: the invariant evaluated at the initial state. -/
theorem history_starts_empty_witness :
    initialState.history ≠ [] ∧
    initialState.history.getD 0 emptyBoard = emptyBoard :=
  history_starts_empty initialState .init

/-- C10: in every reachable state, snapshot `k` of the history holds
exactly `k` marks, consecutive snapshots differ in exactly one cell (an
empty cell that received a mark), and `currentStep` is always within the
history (all reachable jumps are in range). -/
theorem history_snapshot_structure (s : GameState) (h : Reachable s) :
    (∀ k, k < s.history.length →
      countMarks (s.history.getD k emptyBoard) = k) ∧
    (∀ k, k + 1 < s.history.length →
      diffOne (s.history.getD k emptyBoard)
        (s.history.getD (k + 1) emptyBoard)) ∧
    s.stepNumber < s.history.length := by
  have hinv := reachable_inv h
  exact ⟨hinv.2.2.2.2.1, hinv.2.2.2.2.2, hinv.1⟩

/-- C10 witness: after three moves, snapshot 3 carries three marks and the
viewed step is in range. -/
theorem history_snapshot_structure_witness :
    countMarks (threeMoveState.history.getD 3 emptyBoard) = 3 ∧
    threeMoveState.stepNumber < threeMoveState.history.length :=
  ⟨(history_snapshot_structure threeMoveState reachable_threeMoveState).1 3
    (by decide),
   (history_snapshot_structure threeMoveState reachable_threeMoveState).2.2⟩
